import Mathlib

/-!
# compose-cli: service selection and the up sequence

A shallow embedding of `cli/cmd/compose/compose.go` (`filter`, `addServiceNames`)
and `cli/cmd/compose/up.go` (`setup`, `runUp`, `runCreateStart`).

* Go errors are values of `Error`; a nil error is `none`.
* The mutable `*types.Project` is passed explicitly: a function that mutates the
  project returns the project as it is after the call.
* `addServiceNames` is recursive without a bound in Go. The embedding bounds the
  depth of the call stack by a `fuel` argument; `none` means the bound was hit.
* A Go run-time panic is the `Exit.panicked` outcome.
-/

namespace Compose

/-! ## Data model -/

/-- Errors returned through Go's `error` interface. `noSuchService` is the
lookup error of `GetService`; `other` stands for every other error. -/
inductive Error where
  | noSuchService (name : String)
  | other (msg : String)
  deriving DecidableEq, Repr

/-- Modelled from the spec: `types.ServiceConfig` of compose-go, whose declaration
is not part of the sources. Section 3 gives a service a name, an ordered sequence
of dependency names and a domain-name attribute. -/
structure ServiceConfig where
  Name : String
  DependsOn : List String
  DomainName : String
  deriving DecidableEq, Repr

/-- Modelled from the spec: `types.Project` of compose-go, whose declaration is not
part of the sources: a name and an ordered sequence of services. -/
structure Project where
  Name : String
  Services : List ServiceConfig
  deriving DecidableEq, Repr

/-- Modelled from the spec: `ServiceConfig.GetDependencies` of compose-go, which is
not part of the sources: the dependency names of the service. -/
def ServiceConfig.GetDependencies (s : ServiceConfig) : List String :=
  s.DependsOn

/-- Modelled from the spec: `Project.GetService` of compose-go, which is not part
of the sources: the service of that name, or the lookup error when the project has
no service of that name. -/
def Project.GetService (p : Project) (name : String) : Except Error ServiceConfig :=
  match p.Services.find? (fun s => s.Name == name) with
  | some s => .ok s
  | none => .error (.noSuchService name)

/-- The key set of the Go map `names map[string]bool` (every stored value is
`true`; only key presence is ever read). -/
abbrev Names := List String

/-- The map write `names[name] = true`. -/
def Names.set (names : Names) (name : String) : Names :=
  if name ∈ names then names else name :: names

/-! ## compose.go -/

/-- The `for _, name := range services` loop of `addServiceNames`, with the
recursive call `addServiceNames(project, service.GetDependencies(), names)`
passed as `recur`. `none`: the recursion did not return. -/
def addServiceNamesLoop (recur : List String → Names → Option (Except Error Names))
    (project : Project) : List String → Names → Option (Except Error Names)
  | [], names => some (.ok names)
  | name :: rest, names =>
    let names := names.set name
    match project.GetService name with
    | .error err => some (.error err)
    | .ok service =>
      match recur service.GetDependencies names with
      | none => none
      | some (.error err) => some (.error err)
      | some (.ok names) => addServiceNamesLoop recur project rest names

/-- Embedding of `addServiceNames`; `fuel` bounds the depth of the call stack
(each call of the function takes one unit). The result is the content of the map
after the call, or the error returned. -/
def addServiceNames : Nat → Project → List String → Names → Option (Except Error Names)
  | 0, _, _, _ => none
  | fuel + 1, project, services, names =>
    addServiceNamesLoop (addServiceNames fuel project) project services names

/-- Embedding of `filter`: the project after the call and the error returned
(`none` for nil). The outer `none`: `addServiceNames` did not return within
`fuel` nested calls. -/
def filter (fuel : Nat) (project : Project) (services : List String) :
    Option (Project × Option Error) :=
  if services.length = 0 then
    some (project, none)
  else
    match addServiceNames fuel project services [] with
    | none => none
    | some (.error err) => some (project, some err)
    | some (.ok names) =>
      let filtered := project.Services.filter (fun s => decide (s.Name ∈ names))
      some ({ project with Services := filtered }, none)

/-! ## up.go -/

/-- The fields of `composeOptions`. -/
structure composeOptions where
  Name : String
  DomainName : String
  WorkingDir : String
  ConfigPaths : List String
  Environment : List String
  Format : String
  Detach : Bool
  Quiet : Bool
  deriving DecidableEq, Repr

/-- A `context.Context` by its origin: the context the command received,
`context.Background()`, or a context derived from a parent (what `progress.Run`
hands to its callback). -/
inductive Ctx where
  | ambient
  | background
  | withWriter (parent : Ctx)
  deriving DecidableEq, Repr

/-- The context a context is derived from, at the bottom of the chain. -/
def Ctx.root : Ctx → Ctx
  | .ambient => .ambient
  | .background => .background
  | .withWriter parent => parent.root

/-- The non-nil values of `ctx.Err()`. -/
inductive CtxErr where
  | Canceled
  | DeadlineExceeded
  deriving DecidableEq, Repr

/-- The `io.Writer` values used by `runCreateStart`; a nil writer is `none`. -/
inductive Writer where
  | Stdout
  deriving DecidableEq, Repr

/-- Modelled from the spec: the compose service of the backend client
(`c.ComposeService()`), not part of the sources. Section 2 gives it the
Create/Start/Up/Down primitives; each field is the error the primitive returns
for the given arguments (`none` for nil). -/
structure ComposeService where
  Create : Ctx → Project → Option Error
  Start : Ctx → Project → Option Writer → Option Error
  Up : Ctx → Project → Bool → Option Error
  Down : Ctx → String → Option Error

/-- The arguments `cli.NewProjectOptions` receives from `toProjectOptions`. -/
structure ProjectOptions where
  ConfigPaths : List String
  Environment : List String
  WorkingDir : String
  Name : String
  deriving DecidableEq, Repr

/-- What the run depends on outside the two source files: the client
constructor, the project loader and the state of the ambient context. -/
structure Env where
  /-- Result of `client.New(ctx)`. -/
  clientNew : Ctx → Except Error ComposeService
  /-- Result of `cli.NewProjectOptions`. -/
  NewProjectOptions : ProjectOptions → Except Error ProjectOptions
  /-- Result of `cli.ProjectFromOptions`. -/
  ProjectFromOptions : ProjectOptions → Except Error Project
  /-- Value of `ctx.Err()` on the ambient context once `Start` has returned. -/
  ctxErrAfterStart : Option CtxErr

/-- What a run does that is visible outside: calls of the backend primitives,
with the context each received, and lines printed. -/
inductive Event where
  | create (ctx : Ctx) (project : Project)
  | start (ctx : Ctx) (project : Project) (w : Option Writer)
  | up (ctx : Ctx) (project : Project) (detach : Bool)
  | down (ctx : Ctx) (projectName : String)
  | println (line : String)
  deriving DecidableEq, Repr

/-- Whether the event is a call of `Down`. -/
def Event.isDown : Event → Bool
  | .down _ _ => true
  | _ => false

/-- Whether the event is a call of a backend primitive. -/
def Event.isBackendCall : Event → Bool
  | .println _ => false
  | _ => true

/-- How a function ends: it returns its error value, or it panics. -/
inductive Exit where
  | returned (err : Option Error)
  | panicked
  deriving DecidableEq, Repr

/-- A finished run: the events in order and how it ended. -/
structure Run where
  trace : List Event
  exit : Exit
  deriving DecidableEq, Repr

/-- How `setup` ends: with client and project, with an error, or in a panic. -/
inductive SetupExit where
  | ok (c : ComposeService) (project : Project)
  | failed (err : Error)
  | panicked

/-- Modelled from the spec: `progress.Run` of this repository, not part of the
sources (progress rendering is out of the spec's scope): it calls the function
once, with a context derived from the one given, and returns what it returns. -/
def progressRun (ctx : Ctx) (pf : Ctx → List Event × Option Error) :
    List Event × Option Error :=
  pf (.withWriter ctx)

/-- Embedding of `composeOptions.toProjectOptions`. -/
def composeOptions.toProjectOptions (env : Env) (o : composeOptions) :
    Except Error ProjectOptions :=
  env.NewProjectOptions
    { ConfigPaths := o.ConfigPaths, Environment := o.Environment,
      WorkingDir := o.WorkingDir, Name := o.Name }

/-- The indexed write `project.Services[0].DomainName = domainName`; `none` is
the index-out-of-range panic. -/
def setFirstDomainName (project : Project) (domainName : String) : Option Project :=
  match project.Services with
  | [] => none
  | s :: rest => some { project with Services := { s with DomainName := domainName } :: rest }

/-- Embedding of `setup`. The outer `none`: `filter` did not return. -/
def setup (fuel : Nat) (env : Env) (ctx : Ctx) (opts : composeOptions)
    (services : List String) : Option SetupExit :=
  match env.clientNew ctx with
  | .error err => some (.failed err)
  | .ok c =>
    match opts.toProjectOptions env with
    | .error err => some (.failed err)
    | .ok options =>
      match env.ProjectFromOptions options with
      | .error err => some (.failed err)
      | .ok project =>
        match (if opts.DomainName ≠ "" then setFirstDomainName project opts.DomainName
               else some project) with
        | none => some .panicked
        | some project =>
          match filter fuel project services with
          | none => none
          | some (_, some err) => some (.failed err)
          | some (project, none) => some (.ok c project)

/-- Embedding of `runUp`. -/
def runUp (fuel : Nat) (env : Env) (ctx : Ctx) (opts : composeOptions)
    (services : List String) : Option Run :=
  match setup fuel env ctx opts services with
  | none => none
  | some .panicked => some ⟨[], .panicked⟩
  | some (.failed err) => some ⟨[], .returned (some err)⟩
  | some (.ok c project) =>
    let r := progressRun ctx (fun ctx =>
      ([Event.up ctx project opts.Detach], c.Up ctx project opts.Detach))
    some ⟨r.1, .returned r.2⟩

/-- Embedding of `runCreateStart`. -/
def runCreateStart (fuel : Nat) (env : Env) (ctx : Ctx) (opts : composeOptions)
    (services : List String) : Option Run :=
  match setup fuel env ctx opts services with
  | none => none
  | some .panicked => some ⟨[], .panicked⟩
  | some (.failed err) => some ⟨[], .returned (some err)⟩
  | some (.ok c project) =>
    let r := progressRun ctx (fun ctx => ([Event.create ctx project], c.Create ctx project))
    match r.2 with
    | some err => some ⟨r.1, .returned (some err)⟩
    | none =>
      let w : Option Writer := if !opts.Detach then some .Stdout else none
      let err := c.Start ctx project w
      let trace := r.1 ++ [Event.start ctx project w]
      if env.ctxErrAfterStart = some .Canceled then
        let trace := trace ++ [Event.println "Gracefully stopping..."]
        let ctx := Ctx.background
        let d := progressRun ctx (fun ctx => ([Event.down ctx project.Name], c.Down ctx project.Name))
        some ⟨trace ++ d.1, .returned d.2⟩
      else
        some ⟨trace, .returned err⟩

/-! ## Specification vocabulary for the selector -/

/-- Names reachable from the selection `S`: a name of `S`, or a name in the
dependency list of a service whose name is reachable. -/
inductive Reach (P : Project) (S : List String) : String → Prop where
  | base {n : String} : n ∈ S → Reach P S n
  | step {m n : String} (s : ServiceConfig) :
      Reach P S m → s ∈ P.Services → s.Name = m → n ∈ s.GetDependencies → Reach P S n

/-- Service names are unique within the project (the data-model invariant). -/
def Project.UniqueNames (P : Project) : Prop :=
  (P.Services.map (fun s => s.Name)).Nodup

/-- The dependency graph has no cycle: some rank strictly decreases along every
dependency edge. -/
def Project.Acyclic (P : Project) : Prop :=
  ∃ rank : String → Nat, ∀ s ∈ P.Services, ∀ d ∈ s.GetDependencies, rank d < rank s.Name

/-- The project with its services restricted to the names of `K`, in order. -/
def Project.restrict (P : Project) (K : List String) : Project :=
  { P with Services := P.Services.filter (fun s => decide (s.Name ∈ K)) }

/-- The services `web` and `db` of the example, the closure of `web`. -/
def webClosure : Project :=
  { Name := "app"
    Services := [⟨"web", ["db"], ""⟩, ⟨"db", [], ""⟩] }

/-- Example of the spec: `web` (deps `db`), `db`, `cache`. -/
def webProject : Project :=
  { Name := "app"
    Services := [⟨"web", ["db"], ""⟩, ⟨"db", [], ""⟩, ⟨"cache", [], ""⟩] }

/-- The two-service cycle: `A` depends on `B`, `B` depends on `A`. -/
def cycleProject : Project :=
  { Name := "cyc"
    Services := [⟨"A", ["B"], ""⟩, ⟨"B", ["A"], ""⟩] }

/-! ## Concrete environments -/

/-- A backend whose `Start` returns an error (as when it is interrupted) and
whose other primitives succeed. -/
def interruptedService : ComposeService :=
  { Create := fun _ _ => none
    Start := fun _ _ _ => some (.other "interrupted")
    Up := fun _ _ _ => none
    Down := fun _ _ => none }

/-- A backend whose `Create` fails. -/
def failingCreateService : ComposeService :=
  { Create := fun _ _ => some (.other "create failed")
    Start := fun _ _ _ => none
    Up := fun _ _ _ => none
    Down := fun _ _ => none }

/-- The environment in which the client is `c`, the project loaded is `P` and
`ctx.Err()` is `ctxErr` once `Start` has returned. -/
def envOf (c : ComposeService) (P : Project) (ctxErr : Option CtxErr) : Env :=
  { clientNew := fun _ => .ok c
    NewProjectOptions := fun o => .ok o
    ProjectFromOptions := fun _ => .ok P
    ctxErrAfterStart := ctxErr }

/-- Options with the given domain name and detach flag, the rest empty. -/
def optsOf (domainName : String) (detach : Bool) : composeOptions :=
  { Name := "", DomainName := domainName, WorkingDir := "", ConfigPaths := [],
    Environment := [], Format := "", Detach := detach, Quiet := false }

/-- A project with no service. -/
def emptyProject : Project :=
  { Name := "none", Services := [] }

/-- Two services without dependencies, `cache` declared first. -/
def cacheWebProject : Project :=
  { Name := "app", Services := [⟨"cache", [], ""⟩, ⟨"web", [], ""⟩] }

/-- The project `cacheWebProject` after the domain name `example.com` is written
to its first service. -/
def cacheWebDomainProject : Project :=
  { Name := "app", Services := [⟨"cache", [], "example.com"⟩, ⟨"web", [], ""⟩] }

/-! ## Lookup and the map of names -/

theorem GetService_ok {P : Project} {n : String} {s : ServiceConfig}
    (h : P.GetService n = .ok s) : s ∈ P.Services ∧ s.Name = n := by
  unfold Project.GetService at h
  split at h
  · next s' hs' =>
    cases h
    exact ⟨List.mem_of_find?_eq_some hs', by simpa using List.find?_some hs'⟩
  · cases h

theorem GetService_error {P : Project} {n : String} {e : Error}
    (h : P.GetService n = .error e) :
    e = .noSuchService n ∧ ∀ s ∈ P.Services, s.Name ≠ n := by
  unfold Project.GetService at h
  split at h
  · cases h
  · next hnone =>
    cases h
    refine ⟨rfl, ?_⟩
    intro s hs
    simpa using (List.find?_eq_none.mp hnone) s hs

theorem GetService_total (P : Project) (n : String) :
    (∃ s, P.GetService n = .ok s) ∨ P.GetService n = .error (.noSuchService n) := by
  unfold Project.GetService
  split
  · next s _ => exact Or.inl ⟨s, rfl⟩
  · exact Or.inr rfl

theorem GetService_of_mem {P : Project} (hU : P.UniqueNames) {s : ServiceConfig}
    (hs : s ∈ P.Services) : P.GetService s.Name = .ok s := by
  rcases GetService_total P s.Name with ⟨t, ht⟩ | herr
  · obtain ⟨htm, htn⟩ := GetService_ok ht
    have : t = s := List.inj_on_of_nodup_map hU htm hs htn
    rw [ht, this]
  · exact absurd rfl ((GetService_error herr).2 s hs)

theorem mem_set {names : Names} {name x : String} :
    x ∈ names.set name ↔ x = name ∨ x ∈ names := by
  unfold Names.set
  split
  · next h =>
    constructor
    · exact Or.inr
    · rintro (rfl | h')
      · exact h
      · exact h'
  · simp

/-! ## Reachability -/

theorem Reach.trans {P : Project} {S T : List String} (hST : ∀ m ∈ S, Reach P T m)
    {n : String} (h : Reach P S n) : Reach P T n := by
  induction h with
  | base hm => exact hST _ hm
  | step s _ hs hn hd ih => exact Reach.step s ih hs hn hd

theorem Reach.mono {P : Project} {S T : List String} (hST : ∀ m ∈ S, m ∈ T)
    {n : String} (h : Reach P S n) : Reach P T n :=
  Reach.trans (fun m hm => Reach.base (hST m hm)) h

theorem Reach.nil {P : Project} {n : String} (h : Reach P [] n) : False := by
  induction h with
  | base hm => cases hm
  | step _ _ _ _ _ ih => exact ih

theorem Reach.cons_split {P : Project} {a : String} {S : List String} {n : String}
    (h : Reach P (a :: S) n) : Reach P [a] n ∨ Reach P S n := by
  induction h with
  | base hm =>
    rcases List.mem_cons.mp hm with rfl | hm
    · exact Or.inl (Reach.base (List.mem_singleton.mpr rfl))
    · exact Or.inr (Reach.base hm)
  | step s _ hs hn hd ih =>
    rcases ih with ih | ih
    · exact Or.inl (Reach.step s ih hs hn hd)
    · exact Or.inr (Reach.step s ih hs hn hd)

theorem Reach.of_deps {P : Project} {a : String} {S : List String} {s : ServiceConfig}
    (hs : s ∈ P.Services) (hn : s.Name = a) {n : String}
    (h : Reach P s.GetDependencies n) : Reach P (a :: S) n :=
  Reach.trans (fun _ hm => Reach.step s (Reach.base (List.mem_cons_self a S)) hs hn hm) h

theorem Reach.singleton_split {P : Project} (hU : P.UniqueNames) {a : String}
    {s : ServiceConfig} (hs : P.GetService a = .ok s) {n : String}
    (h : Reach P [a] n) : n = a ∨ Reach P s.GetDependencies n := by
  induction h with
  | base hm => exact Or.inl (List.mem_singleton.mp hm)
  | step t _ ht hn hd ih =>
    rcases ih with rfl | ih
    · have : P.GetService t.Name = .ok t := GetService_of_mem hU ht
      rw [← hn, this] at hs
      cases hs
      exact Or.inr (Reach.base hd)
    · exact Or.inr (Reach.step t ih ht hn hd)

theorem Reach.cons_iff {P : Project} (hU : P.UniqueNames) {a : String} {S : List String}
    {s : ServiceConfig} (hs : P.GetService a = .ok s) (n : String) :
    Reach P (a :: S) n ↔ n = a ∨ Reach P s.GetDependencies n ∨ Reach P S n := by
  constructor
  · intro h
    rcases Reach.cons_split h with h | h
    · rcases Reach.singleton_split hU hs h with h | h
      · exact Or.inl h
      · exact Or.inr (Or.inl h)
    · exact Or.inr (Or.inr h)
  · rintro (rfl | h | h)
    · exact Reach.base (List.mem_cons_self _ _)
    · exact Reach.of_deps (GetService_ok hs).1 (GetService_ok hs).2 h
    · exact Reach.mono (fun m hm => List.mem_cons_of_mem _ hm) h

/-! ## The walk of `addServiceNames` -/

section Walk

variable {recur : List String → Names → Option (Except Error Names)} {P : Project}

theorem loop_cons_ok {name : String} {rest : List String} {names names' : Names} :
    addServiceNamesLoop recur P (name :: rest) names = some (.ok names') ↔
      ∃ service names2, P.GetService name = .ok service ∧
        recur service.GetDependencies (names.set name) = some (.ok names2) ∧
        addServiceNamesLoop recur P rest names2 = some (.ok names') := by
  simp only [addServiceNamesLoop]
  cases hg : P.GetService name with
  | error e => simp
  | ok service =>
    cases hr : recur service.GetDependencies (names.set name) with
    | none => simp [hr]
    | some r =>
      cases r with
      | error e => simp [hr]
      | ok names2 => simp [hr]

theorem loop_cons_error {name : String} {rest : List String} {names : Names} {e : Error} :
    addServiceNamesLoop recur P (name :: rest) names = some (.error e) ↔
      P.GetService name = .error e ∨
      ∃ service, P.GetService name = .ok service ∧
        (recur service.GetDependencies (names.set name) = some (.error e) ∨
         ∃ names2, recur service.GetDependencies (names.set name) = some (.ok names2) ∧
           addServiceNamesLoop recur P rest names2 = some (.error e)) := by
  simp only [addServiceNamesLoop]
  cases hg : P.GetService name with
  | error e' => simp
  | ok service =>
    cases hr : recur service.GetDependencies (names.set name) with
    | none => simp [hr]
    | some r =>
      cases r with
      | error e' => simp [hr]
      | ok names2 => simp [hr]

theorem loop_cons_none {name : String} {rest : List String} {names : Names} :
    addServiceNamesLoop recur P (name :: rest) names = none ↔
      ∃ service, P.GetService name = .ok service ∧
        (recur service.GetDependencies (names.set name) = none ∨
         ∃ names2, recur service.GetDependencies (names.set name) = some (.ok names2) ∧
           addServiceNamesLoop recur P rest names2 = none) := by
  simp only [addServiceNamesLoop]
  cases hg : P.GetService name with
  | error e' => simp
  | ok service =>
    cases hr : recur service.GetDependencies (names.set name) with
    | none => simp [hr]
    | some r =>
      cases r with
      | error e' => simp [hr]
      | ok names2 => simp [hr]

end Walk

/-- On success the map holds what it held before plus exactly the names reachable
from the services walked, and every reachable name resolves to a service. -/
theorem addServiceNames_ok {P : Project} (hU : P.UniqueNames) :
    ∀ (fuel : Nat) (svcs : List String) (names names' : Names),
      addServiceNames fuel P svcs names = some (.ok names') →
      (∀ n, n ∈ names' ↔ n ∈ names ∨ Reach P svcs n) ∧
      (∀ n, Reach P svcs n → ∃ s, P.GetService n = .ok s) := by
  intro fuel
  induction fuel with
  | zero => intro svcs names names' h; simp [addServiceNames] at h
  | succ fuel ih =>
    intro svcs
    induction svcs with
    | nil =>
      intro names names' h
      simp only [addServiceNames, addServiceNamesLoop, Option.some.injEq,
        Except.ok.injEq] at h
      subst h
      exact ⟨fun n => ⟨Or.inl, fun h => h.elim id (fun r => (Reach.nil r).elim)⟩,
        fun n r => (Reach.nil r).elim⟩
    | cons name rest ihl =>
      intro names names' h
      simp only [addServiceNames] at h ihl
      obtain ⟨service, names2, hg, hrec, hrest⟩ := loop_cons_ok.mp h
      obtain ⟨h1, e1⟩ := ih _ _ _ hrec
      obtain ⟨h2, e2⟩ := ihl _ _ hrest
      constructor
      · intro n
        rw [h2, h1, mem_set, Reach.cons_iff hU hg]
        tauto
      · intro n hn
        rcases (Reach.cons_iff hU hg n).mp hn with rfl | hn | hn
        · exact ⟨service, hg⟩
        · exact e1 n hn
        · exact e2 n hn

/-- An error returned by the walk is the lookup error of a name that is requested
or reachable and that no service of the project carries. -/
theorem addServiceNames_error {P : Project} :
    ∀ (fuel : Nat) (svcs : List String) (names : Names) (e : Error),
      addServiceNames fuel P svcs names = some (.error e) →
      ∃ n, e = .noSuchService n ∧ Reach P svcs n ∧ ∀ s ∈ P.Services, s.Name ≠ n := by
  intro fuel
  induction fuel with
  | zero => intro svcs names e h; simp [addServiceNames] at h
  | succ fuel ih =>
    intro svcs
    induction svcs with
    | nil => intro names e h; simp [addServiceNames, addServiceNamesLoop] at h
    | cons name rest ihl =>
      intro names e h
      simp only [addServiceNames] at h ihl
      rcases loop_cons_error.mp h with hg | ⟨service, hg, hrec | ⟨names2, _, hrest⟩⟩
      · obtain ⟨he, hno⟩ := GetService_error hg
        exact ⟨name, he, Reach.base (List.mem_cons_self _ _), hno⟩
      · obtain ⟨n, he, hr, hno⟩ := ih _ _ _ hrec
        exact ⟨n, he, Reach.of_deps (GetService_ok hg).1 (GetService_ok hg).2 hr, hno⟩
      · obtain ⟨n, he, hr, hno⟩ := ihl _ _ hrest
        exact ⟨n, he, Reach.mono (fun m hm => List.mem_cons_of_mem _ hm) hr, hno⟩

/-- More fuel does not change a result already obtained. -/
theorem addServiceNames_fuel_succ {P : Project} :
    ∀ (fuel : Nat) (svcs : List String) (names : Names) (r : Except Error Names),
      addServiceNames fuel P svcs names = some r →
      addServiceNames (fuel + 1) P svcs names = some r := by
  intro fuel
  induction fuel with
  | zero => intro svcs names r h; simp [addServiceNames] at h
  | succ fuel ih =>
    intro svcs
    induction svcs with
    | nil => intro names r h; simpa [addServiceNames, addServiceNamesLoop] using h
    | cons name rest ihl =>
      intro names r h
      simp only [addServiceNames] at h ihl ⊢
      cases r with
      | ok names' =>
        obtain ⟨service, names2, hg, hrec, hrest⟩ := loop_cons_ok.mp h
        exact loop_cons_ok.mpr ⟨service, names2, hg, ih _ _ _ hrec, ihl _ _ hrest⟩
      | error e =>
        rcases loop_cons_error.mp h with hg | ⟨service, hg, hrec | ⟨names2, hrec, hrest⟩⟩
        · exact loop_cons_error.mpr (Or.inl hg)
        · exact loop_cons_error.mpr (Or.inr ⟨service, hg, Or.inl (ih _ _ _ hrec)⟩)
        · exact loop_cons_error.mpr
            (Or.inr ⟨service, hg, Or.inr ⟨names2, ih _ _ _ hrec, ihl _ _ hrest⟩⟩)

theorem addServiceNames_fuel_mono {P : Project} {fuel fuel' : Nat} (hle : fuel ≤ fuel')
    {svcs : List String} {names : Names} {r : Except Error Names}
    (h : addServiceNames fuel P svcs names = some r) :
    addServiceNames fuel' P svcs names = some r := by
  induction hle with
  | refl => exact h
  | step _ ih => exact addServiceNames_fuel_succ _ _ _ _ ih

/-! ## When the walk returns -/

theorem loop_returns {recur : List String → Names → Option (Except Error Names)}
    {P : Project} :
    ∀ (svcs : List String),
      (∀ n ∈ svcs, ∀ service, P.GetService n = .ok service →
        ∀ names, ∃ res, recur service.GetDependencies names = some res) →
      ∀ names, ∃ res, addServiceNamesLoop recur P svcs names = some res := by
  intro svcs
  induction svcs with
  | nil => intro _ names; exact ⟨.ok names, rfl⟩
  | cons name rest ihl =>
    intro hrec names
    have hrest := ihl (fun n hn => hrec n (List.mem_cons_of_mem _ hn))
    rcases GetService_total P name with ⟨service, hg⟩ | hg
    · obtain ⟨res, hres⟩ := hrec name (List.mem_cons_self _ _) service hg (names.set name)
      cases res with
      | error e => exact ⟨.error e, loop_cons_error.mpr (Or.inr ⟨service, hg, Or.inl hres⟩)⟩
      | ok names2 =>
        obtain ⟨res2, hres2⟩ := hrest names2
        cases res2 with
        | error e =>
          exact ⟨.error e, loop_cons_error.mpr (Or.inr ⟨service, hg, Or.inr ⟨names2, hres, hres2⟩⟩)⟩
        | ok names3 => exact ⟨.ok names3, loop_cons_ok.mpr ⟨service, names2, hg, hres, hres2⟩⟩
    · exact ⟨.error (.noSuchService name), loop_cons_error.mpr (Or.inl hg)⟩

/-- With a rank that decreases along dependency edges, a call stack one deeper
than the largest rank walked is enough for the walk to return. -/
theorem addServiceNames_returns_of_rank {P : Project} (rank : String → Nat)
    (hrank : ∀ s ∈ P.Services, ∀ d ∈ s.GetDependencies, rank d < rank s.Name) :
    ∀ (r : Nat) (svcs : List String) (names : Names), (∀ n ∈ svcs, rank n < r) →
      ∃ res, addServiceNames (r + 1) P svcs names = some res := by
  intro r
  induction r with
  | zero =>
    intro svcs names h
    cases svcs with
    | nil => exact ⟨.ok names, rfl⟩
    | cons n _ => exact absurd (h n (List.mem_cons_self _ _)) (Nat.not_lt_zero _)
  | succ r ih =>
    intro svcs names h
    simp only [addServiceNames]
    refine loop_returns svcs ?_ names
    intro n hn service hg names1
    obtain ⟨hmem, hname⟩ := GetService_ok hg
    have := ih service.GetDependencies names1 (fun d hd => by
      have h1 := hrank service hmem d hd
      have h2 := h n hn
      rw [hname] at h1
      omega)
    simpa [addServiceNames] using this

/-- The walk over the two-service cycle never returns, whatever the map already
holds: a name that is already in the map is walked again. -/
theorem cycle_walk_none :
    ∀ (fuel : Nat) (rest : List String) (names : Names),
      addServiceNames fuel cycleProject ("A" :: rest) names = none ∧
      addServiceNames fuel cycleProject ("B" :: rest) names = none := by
  intro fuel
  induction fuel with
  | zero => intro rest names; exact ⟨rfl, rfl⟩
  | succ fuel ih =>
    intro rest names
    constructor
    · simp only [addServiceNames]
      exact loop_cons_none.mpr ⟨⟨"A", ["B"], ""⟩, by rfl, Or.inl (ih [] _).2⟩
    · simp only [addServiceNames]
      exact loop_cons_none.mpr ⟨⟨"B", ["A"], ""⟩, by rfl, Or.inl (ih [] _).1⟩

/-! ## `filter` -/

theorem filter_ok_iff {fuel : Nat} {P P' : Project} {S : List String} (hS : S ≠ []) :
    filter fuel P S = some (P', none) ↔
      ∃ names, addServiceNames fuel P S [] = some (.ok names) ∧
        P' = { P with Services := P.Services.filter (fun s => decide (s.Name ∈ names)) } := by
  have hlen : ¬ S.length = 0 := by simpa using hS
  simp only [filter, hlen, if_false]
  cases h : addServiceNames fuel P S [] with
  | none => simp
  | some r =>
    cases r with
    | error e => simp
    | ok names =>
      simp only [Option.some.injEq, Prod.mk.injEq, and_true, Except.ok.injEq, exists_eq_left']
      exact eq_comm

theorem filter_error_iff {fuel : Nat} {P P' : Project} {S : List String} {e : Error} :
    filter fuel P S = some (P', some e) ↔
      addServiceNames fuel P S [] = some (.error e) ∧ S ≠ [] ∧ P' = P := by
  by_cases hS : S = []
  · subst hS; simp [filter]
  · have hlen : ¬ S.length = 0 := by simpa using hS
    simp only [filter, hlen, if_false]
    cases h : addServiceNames fuel P S [] with
    | none => simp
    | some r =>
      cases r with
      | error e' =>
        simp only [Option.some.injEq, Prod.mk.injEq, Except.error.injEq, ne_eq, hS,
          not_false_eq_true, true_and]
        constructor
        · rintro ⟨h1, h2⟩; exact ⟨h2, h1.symm⟩
        · rintro ⟨h1, h2⟩; exact ⟨h2.symm, h1⟩
      | ok names => simp

theorem filter_none_iff {fuel : Nat} {P : Project} {S : List String} :
    filter fuel P S = none ↔ S ≠ [] ∧ addServiceNames fuel P S [] = none := by
  by_cases hS : S = []
  · subst hS; simp [filter]
  · have hlen : ¬ S.length = 0 := by simpa using hS
    simp only [filter, hlen, if_false]
    cases h : addServiceNames fuel P S [] with
    | none => simp [hS]
    | some r =>
      cases r with
      | error e => simp
      | ok names => simp

/-! ## Filtering a filtered project -/

theorem walk_mono {P : Project} :
    ∀ (fuel : Nat) (svcs : List String) (names names' : Names),
      addServiceNames fuel P svcs names = some (.ok names') →
      (∀ n ∈ names, n ∈ names') ∧ (∀ n ∈ svcs, n ∈ names') := by
  intro fuel
  induction fuel with
  | zero => intro svcs names names' h; simp [addServiceNames] at h
  | succ fuel ih =>
    intro svcs
    induction svcs with
    | nil =>
      intro names names' h
      simp only [addServiceNames, addServiceNamesLoop, Option.some.injEq,
        Except.ok.injEq] at h
      subst h
      exact ⟨fun _ h => h, fun _ h => by cases h⟩
    | cons name rest ihl =>
      intro names names' h
      simp only [addServiceNames] at h ihl
      obtain ⟨service, names2, _, hrec, hrest⟩ := loop_cons_ok.mp h
      obtain ⟨h1, _⟩ := ih _ _ _ hrec
      obtain ⟨h2, h3⟩ := ihl _ _ hrest
      refine ⟨fun n hn => h2 n (h1 n (mem_set.mpr (Or.inr hn))), ?_⟩
      intro n hn
      rcases List.mem_cons.mp hn with rfl | hn
      · exact h2 _ (h1 _ (mem_set.mpr (Or.inl rfl)))
      · exact h3 n hn

theorem find_filter_of_imp {α : Type} (p q : α → Bool) (hpq : ∀ a, p a = true → q a = true) :
    ∀ l : List α, (l.filter q).find? p = l.find? p := by
  intro l
  induction l with
  | nil => rfl
  | cons a l ih =>
    by_cases hq : q a = true
    · rw [List.filter_cons_of_pos hq]
      by_cases hp : p a = true
      · simp [List.find?_cons, hp]
      · simp [List.find?_cons, hp, ih]
    · rw [List.filter_cons_of_neg hq]
      have hp : ¬ p a = true := fun hp => hq (hpq a hp)
      simp [List.find?_cons, hp, ih]

theorem GetService_restrict {P : Project} {K : List String} {n : String} (hn : n ∈ K) :
    (P.restrict K).GetService n = P.GetService n := by
  unfold Project.GetService Project.restrict
  simp only
  rw [find_filter_of_imp]
  intro a ha
  have : a.Name = n := by simpa using ha
  simpa [this] using hn

/-- A walk that succeeds runs the same way on the project restricted to any set
of names that contains the resulting map. -/
theorem walk_restrict {P : Project} {K : List String} :
    ∀ (fuel : Nat) (svcs : List String) (names names' : Names),
      addServiceNames fuel P svcs names = some (.ok names') →
      (∀ n ∈ names', n ∈ K) →
      addServiceNames fuel (P.restrict K) svcs names = some (.ok names') := by
  intro fuel
  induction fuel with
  | zero => intro svcs names names' h; simp [addServiceNames] at h
  | succ fuel ih =>
    intro svcs
    induction svcs with
    | nil => intro names names' h _; simpa [addServiceNames, addServiceNamesLoop] using h
    | cons name rest ihl =>
      intro names names' h hK
      have hname : name ∈ names' := (walk_mono _ _ _ _ h).2 name (List.mem_cons_self _ _)
      simp only [addServiceNames] at h ihl ⊢
      obtain ⟨service, names2, hg, hrec, hrest⟩ := loop_cons_ok.mp h
      have h2 : ∀ n ∈ names2, n ∈ names' := by
        have := walk_mono (fuel + 1) rest names2 names' (by simpa [addServiceNames] using hrest)
        exact this.1
      refine loop_cons_ok.mpr ⟨service, names2, ?_, ?_, ihl _ _ hrest hK⟩
      · rw [GetService_restrict (hK _ hname)]; exact hg
      · exact ih _ _ _ hrec (fun n hn => hK n (h2 n hn))

/-- A walk that succeeds also succeeds, with the same fuel, from any list of
names drawn from the names walked and from any initial map. -/
theorem walk_sub_ok {P : Project} :
    ∀ (fuel : Nat) (svcs : List String) (names names' : Names),
      addServiceNames fuel P svcs names = some (.ok names') →
      ∀ (svcs0 : List String), (∀ n ∈ svcs0, n ∈ svcs) →
      ∀ names0, ∃ names0', addServiceNames fuel P svcs0 names0 = some (.ok names0') := by
  intro fuel
  induction fuel with
  | zero => intro svcs names names' h; simp [addServiceNames] at h
  | succ fuel ih =>
    intro svcs names names' h
    have each : ∀ n ∈ svcs, ∃ service nm nm', P.GetService n = .ok service ∧
        addServiceNames fuel P service.GetDependencies nm = some (.ok nm') := by
      clear ih
      induction svcs generalizing names with
      | nil => intro n hn; cases hn
      | cons name rest ihl =>
        simp only [addServiceNames] at h ihl
        obtain ⟨service, names2, hg, hrec, hrest⟩ := loop_cons_ok.mp h
        intro n hn
        rcases List.mem_cons.mp hn with rfl | hn
        · exact ⟨service, _, _, hg, hrec⟩
        · exact ihl _ hrest n hn
    intro svcs0
    induction svcs0 with
    | nil => intro _ names0; exact ⟨names0, rfl⟩
    | cons name rest ihl =>
      intro hsub names0
      obtain ⟨service, nm, nm', hg, hrec⟩ := each name (hsub name (List.mem_cons_self _ _))
      obtain ⟨names2, h2⟩ := ih _ _ _ hrec service.GetDependencies (fun _ h => h)
        (names0.set name)
      obtain ⟨names3, h3⟩ := ihl (fun n hn => hsub n (List.mem_cons_of_mem _ hn)) names2
      simp only [addServiceNames] at h3 ⊢
      exact ⟨names3, loop_cons_ok.mpr ⟨service, names2, hg, h2, h3⟩⟩

theorem restrict_filter_of_subset (P : Project) {K L : List String}
    (hLK : ∀ n ∈ L, n ∈ K) :
    (P.restrict K).Services.filter (fun s => decide (s.Name ∈ L)) =
      P.Services.filter (fun s => decide (s.Name ∈ L)) := by
  simp only [Project.restrict, List.filter_filter]
  apply List.filter_congr
  intro s _
  by_cases h : s.Name ∈ L
  · simp [h, hLK _ h]
  · simp [h]

theorem filter_fuel_mono {fuel fuel' : Nat} (hle : fuel ≤ fuel') {P : Project}
    {S : List String} {r : Project × Option Error} (h : filter fuel P S = some r) :
    filter fuel' P S = some r := by
  by_cases hS : S = []
  · subst hS; simpa [filter] using h
  · obtain ⟨P', e⟩ := r
    cases e with
    | none =>
      obtain ⟨names, hw, hP⟩ := (filter_ok_iff hS).mp h
      exact (filter_ok_iff hS).mpr ⟨names, addServiceNames_fuel_mono hle hw, hP⟩
    | some e =>
      obtain ⟨hw, h1, h2⟩ := filter_error_iff.mp h
      exact filter_error_iff.mpr ⟨addServiceNames_fuel_mono hle hw, h1, h2⟩

/-- The result of `filter` does not depend on the fuel that let it return. -/
theorem filter_fuel_agree {fuel fuel' : Nat} {P : Project} {S : List String}
    {r r' : Project × Option Error} (h : filter fuel P S = some r)
    (h' : filter fuel' P S = some r') : r = r' := by
  rcases Nat.le_total fuel fuel' with hle | hle
  · have := filter_fuel_mono hle h
    rw [h'] at this
    exact (Option.some.inj this).symm
  · have := filter_fuel_mono hle h'
    rw [h] at this
    exact Option.some.inj this

/-- On success every requested or reachable name is the name of a service. -/
theorem filter_ok_all_resolve {fuel : Nat} {P P' : Project} {S : List String}
    (hU : P.UniqueNames) (hS : S ≠ []) (h : filter fuel P S = some (P', none)) :
    ∀ n, Reach P S n → ∃ s ∈ P.Services, s.Name = n := by
  obtain ⟨names, hw, _⟩ := (filter_ok_iff hS).mp h
  intro n hn
  obtain ⟨s, hs⟩ := (addServiceNames_ok hU _ _ _ _ hw).2 n hn
  exact ⟨s, GetService_ok hs⟩

/-- When `filter` returns an error the project is as it was, and the error is the
lookup error of a requested or reachable name that no service carries. -/
theorem filter_error_unchanged {fuel : Nat} {P P' : Project} {S : List String} {e : Error}
    (h : filter fuel P S = some (P', some e)) :
    P' = P ∧ ∃ n, e = .noSuchService n ∧ Reach P S n ∧ ∀ s ∈ P.Services, s.Name ≠ n := by
  obtain ⟨hw, _, hP⟩ := filter_error_iff.mp h
  exact ⟨hP, addServiceNames_error _ _ _ _ hw⟩

/-- On a project without dependency cycles `filter` returns. -/
theorem filter_returns_of_acyclic {P : Project} (hA : P.Acyclic) (S : List String) :
    ∃ fuel r, filter fuel P S = some r := by
  obtain ⟨rank, hrank⟩ := hA
  by_cases hS : S = []
  · subst hS; exact ⟨0, (P, none), by simp [filter]⟩
  · have hbound : ∀ n ∈ S, rank n < (S.map rank).sum + 1 := fun n hn =>
      Nat.lt_succ_of_le (List.single_le_sum (fun _ _ => Nat.zero_le _) _
        (List.mem_map_of_mem rank hn))
    obtain ⟨res, hres⟩ := addServiceNames_returns_of_rank rank hrank _ S [] hbound
    have hlen : ¬ S.length = 0 := by simpa using hS
    refine ⟨(S.map rank).sum + 1 + 1, ?_⟩
    simp only [filter, hlen, if_false, hres]
    cases res with
    | error e => exact ⟨_, rfl⟩
    | ok names => exact ⟨_, rfl⟩

/-- On a project without dependency cycles, a missing requested or reachable name
makes `filter` return a lookup error and leave the project as it was. -/
theorem filter_missing_returns_error {P : Project} (hU : P.UniqueNames) (hA : P.Acyclic)
    {S : List String} (hS : S ≠ []) {n : String} (hn : Reach P S n)
    (hmiss : ∀ s ∈ P.Services, s.Name ≠ n) :
    ∃ fuel m, filter fuel P S = some (P, some (.noSuchService m)) ∧ Reach P S m ∧
      ∀ s ∈ P.Services, s.Name ≠ m := by
  obtain ⟨fuel, ⟨P', e⟩, h⟩ := filter_returns_of_acyclic hA S
  cases e with
  | none =>
    obtain ⟨s, hs, hsn⟩ := filter_ok_all_resolve hU hS h n hn
    exact absurd hsn (hmiss s hs)
  | some e =>
    obtain ⟨hP, m, he, hm, hno⟩ := filter_error_unchanged h
    subst hP he
    exact ⟨fuel, m, h, hm, hno⟩

/-! ## The selector claims -/

/-- C1: for a project with unique service names and a non-empty selection `S` on
which `filter` returns without error, the services after the call are the
original service list restricted to the names that are in `S` or reachable from
`S` through dependency lists, in the declared order, and nothing else. -/
theorem filter_closure (fuel : Nat) (P P' : Project) (S : List String)
    (hU : P.UniqueNames) (hS : S ≠ []) (h : filter fuel P S = some (P', none)) :
    (∃ names : List String, (∀ n, n ∈ names ↔ Reach P S n) ∧
      P'.Services = P.Services.filter (fun s => decide (s.Name ∈ names))) ∧
    P'.Services.Sublist P.Services ∧
    (∀ s, s ∈ P'.Services ↔ s ∈ P.Services ∧ Reach P S s.Name) := by
  obtain ⟨names, hw, hP⟩ := (filter_ok_iff hS).mp h
  have hnames : ∀ n, n ∈ names ↔ Reach P S n := fun n => by
    simpa using (addServiceNames_ok hU _ _ _ _ hw).1 n
  subst hP
  refine ⟨⟨names, hnames, rfl⟩, List.filter_sublist _, ?_⟩
  intro s
  simp [List.mem_filter, hnames]

/-- C1 at the example of the spec: `web` (deps `db`), `db`, `cache` filtered by
`web` gives `web`, `db`. -/
theorem filter_closure_witness :
    filter 5 webProject ["web"] = some (webClosure, none) ∧
    ((∃ names : List String, (∀ n, n ∈ names ↔ Reach webProject ["web"] n) ∧
      webClosure.Services =
        webProject.Services.filter (fun s => decide (s.Name ∈ names))) ∧
    webClosure.Services.Sublist webProject.Services ∧
    (∀ s, s ∈ webClosure.Services ↔
      s ∈ webProject.Services ∧ Reach webProject ["web"] s.Name)) :=
  ⟨by decide,
   filter_closure 5 webProject webClosure ["web"]
     (by unfold Project.UniqueNames; decide) (by decide) (by decide)⟩

/-- C2 (defect in the code): the name `ghost` is requested and no service carries
it, yet `filter` on the two-service cycle with selection `A`, `ghost` returns
with no amount of stack: the walk descends from `A` into the cycle and never
reaches the lookup of `ghost`. -/
theorem filter_cycle_missing_never_returns :
    cycleProject.GetService "ghost" = .error (.noSuchService "ghost") ∧
    ∀ fuel : Nat, filter fuel cycleProject ["A", "ghost"] = none := by
  refine ⟨rfl, fun fuel => ?_⟩
  exact filter_none_iff.mpr ⟨by decide, (cycle_walk_none fuel ["ghost"] []).1⟩

/-- C3 (defect in the code): on the two-service cycle `A` depends on `B`, `B`
depends on `A`, `filter` with selection `A` or with selection `B` returns with
no amount of stack, and `addServiceNames` walks `A` again even when the map
already holds `A` and `B`. -/
theorem filter_cycle_never_returns :
    (∀ fuel : Nat, filter fuel cycleProject ["A"] = none) ∧
    (∀ fuel : Nat, filter fuel cycleProject ["B"] = none) ∧
    (∀ fuel : Nat, addServiceNames fuel cycleProject ["A"] ["A", "B"] = none) :=
  ⟨fun fuel => filter_none_iff.mpr ⟨by decide, (cycle_walk_none fuel [] []).1⟩,
   fun fuel => filter_none_iff.mpr ⟨by decide, (cycle_walk_none fuel [] []).2⟩,
   fun fuel => (cycle_walk_none fuel [] ["A", "B"]).1⟩

/-- C7: `filter` with an empty selection returns no error and leaves the project
as it is, whatever the project (dangling or cyclic dependencies included) and
without any call of `addServiceNames` (no fuel is needed). -/
theorem filter_empty_selection (fuel : Nat) (P : Project) :
    filter fuel P [] = some (P, none) := by
  simp [filter]

/-- C8, as the claim states it, fails: `web`, `db`, `cache` filtered by `web`,
`cache` keeps all three services; filtering that result by the subset `web`
returns, and what it returns is `web`, `db`, not the three services. -/
theorem filter_subset_not_same :
    webProject.UniqueNames ∧
    filter 5 webProject ["web", "cache"] = some (webProject, none) ∧
    (∀ n ∈ ["web"], n ∈ ["web", "cache"]) ∧
    filter 5 webProject ["web"] = some (webClosure, none) ∧
    ∀ (fuel : Nat) (P'' : Project), filter fuel webProject ["web"] = some (P'', none) →
      P''.Services ≠ webProject.Services := by
  refine ⟨by unfold Project.UniqueNames; decide, by decide, by decide, by decide, ?_⟩
  intro fuel P'' h
  have h5 : filter 5 webProject ["web"] = some (webClosure, none) := by decide
  have := filter_fuel_agree h h5
  have hP : P'' = webClosure := congrArg Prod.fst this
  subst hP
  decide

/-- C8 (amended): when `filter` succeeds on a project with unique service names
and selection `S`, applying it again to the filtered project with `S` succeeds
and returns the same project. With any selection drawn from `S` it also succeeds
and returns a sublist of the first result: the same project for the empty
selection, and for a non-empty selection what `filter` returns on the original
project for that selection. The service list is the same as the first result
exactly when the selection is empty or every name of `S` is reachable from it. -/
theorem filter_again (fuel : Nat) (P P' : Project) (S : List String)
    (hU : P.UniqueNames) (h : filter fuel P S = some (P', none)) :
    filter fuel P' S = some (P', none) ∧
    ∀ S' : List String, (∀ n ∈ S', n ∈ S) →
      ∃ P'', filter fuel P' S' = some (P'', none) ∧
        P''.Services.Sublist P'.Services ∧
        (S' = [] → P'' = P') ∧
        (S' ≠ [] → filter fuel P S' = some (P'', none)) ∧
        ((S' = [] ∨ ∀ n ∈ S, Reach P S' n) → P'' = P') ∧
        (P''.Services = P'.Services ↔ (S' = [] ∨ ∀ n ∈ S, Reach P S' n)) := by
  by_cases hS : S = []
  · subst hS
    have hP : P' = P := by simpa [filter] using h.symm
    subst hP
    refine ⟨h, fun S' hS' => ?_⟩
    have : S' = [] := List.eq_nil_iff_forall_not_mem.mpr (fun n hn => by cases hS' n hn)
    subst this
    exact ⟨P', h, List.Sublist.refl _, fun _ => rfl, fun h => absurd rfl h, fun _ => rfl,
      ⟨fun _ => Or.inl rfl, fun _ => rfl⟩⟩
  · obtain ⟨names, hw, hP⟩ := (filter_ok_iff hS).mp h
    have hnames := (addServiceNames_ok hU _ _ _ _ hw).1
    have hP' : P' = P.restrict names := hP
    have sub : ∀ S' : List String, S' ≠ [] → (∀ n ∈ S', n ∈ S) →
        ∃ names', addServiceNames fuel P S' [] = some (.ok names') ∧
          (∀ n ∈ names', n ∈ names) ∧
          filter fuel P' S' = some (P.restrict names', none) ∧
          filter fuel P S' = some (P.restrict names', none) := by
      intro S' hne hS'
      obtain ⟨names', hw'⟩ := walk_sub_ok _ _ _ _ hw S' hS' []
      have hnames' := (addServiceNames_ok hU _ _ _ _ hw').1
      have hsub : ∀ n ∈ names', n ∈ names := fun n hn => by
        rcases (hnames' n).mp hn with h0 | hr
        · cases h0
        · exact (hnames n).mpr (Or.inr (Reach.mono hS' hr))
      refine ⟨names', hw', hsub, ?_, (filter_ok_iff hne).mpr ⟨names', hw', rfl⟩⟩
      refine (filter_ok_iff hne).mpr ⟨names', ?_, ?_⟩
      · rw [hP']; exact walk_restrict _ _ _ _ hw' hsub
      · rw [hP']
        have := restrict_filter_of_subset P hsub
        simp only [Project.restrict] at this ⊢
        rw [this]
    have same : ∀ names' : List String, (∀ n, n ∈ names' ↔ n ∈ names) →
        P.restrict names' = P' := by
      intro names' hiff
      rw [hP']
      simp only [Project.restrict]
      congr 1
      apply List.filter_congr
      intro s _
      simp [hiff]
    constructor
    · obtain ⟨names', hw', _, hf, _⟩ := sub S hS (fun _ h => h)
      rw [hw] at hw'
      cases hw'
      rw [hf, same names (fun _ => Iff.rfl)]
    · intro S' hS'
      by_cases hne : S' = []
      · subst hne
        refine ⟨P', by simp [filter], List.Sublist.refl _, fun _ => rfl,
          fun h => absurd rfl h, fun _ => rfl, ⟨fun _ => Or.inl rfl, fun _ => rfl⟩⟩
      · obtain ⟨names', hw', hsub, hf, hf0⟩ := sub S' hne hS'
        have hnames' := (addServiceNames_ok hU _ _ _ _ hw').1
        have hsame : (∀ n ∈ S, Reach P S' n) → P.restrict names' = P' := by
          intro hall
          apply same
          intro n
          refine ⟨hsub n, fun hn => ?_⟩
          rcases (hnames n).mp hn with h0 | hr
          · cases h0
          · exact (hnames' n).mpr (Or.inr (Reach.trans hall hr))
        refine ⟨P.restrict names', hf, ?_, fun h => absurd h hne, fun _ => hf0, ?_, ?_, ?_⟩
        · rw [hP']
          have := restrict_filter_of_subset P hsub
          simp only [Project.restrict] at this ⊢
          rw [← this]
          exact List.filter_sublist _
        · rintro (h0 | hall)
          · exact absurd h0 hne
          · exact hsame hall
        · intro heq
          refine Or.inr (fun n hn => ?_)
          have hn' : n ∈ names := (hnames n).mpr (Or.inr (Reach.base hn))
          obtain ⟨s, hs⟩ := (addServiceNames_ok hU _ _ _ _ hw).2 n (Reach.base hn)
          obtain ⟨hmem, hname⟩ := GetService_ok hs
          have h1 : s ∈ P'.Services := by
            rw [hP']
            exact List.mem_filter.mpr ⟨hmem, by simpa [hname] using hn'⟩
          rw [← heq] at h1
          have h2 : s.Name ∈ names' := by
            simpa using (List.mem_filter.mp h1).2
          rw [hname] at h2
          rcases (hnames' n).mp h2 with h0 | hr
          · cases h0
          · exact hr
        · rintro (h0 | hall)
          · exact absurd h0 hne
          · rw [hsame hall]

/-- C8 (amended) at the example: after `web`, `db`, `cache` is filtered by `web`,
filtering the result by `web` again, or by the empty selection, returns the same
project. -/
theorem filter_again_witness :
    filter 5 webProject ["web"] = some (webClosure, none) ∧
    filter 5 webClosure ["web"] = some (webClosure, none) ∧
    ∃ P'', filter 5 webClosure [] = some (P'', none) ∧ P'' = webClosure := by
  have h := filter_again 5 webProject webClosure ["web"]
    (by unfold Project.UniqueNames; decide) (by decide)
  refine ⟨by decide, h.1, ?_⟩
  obtain ⟨P'', hf, _, hnil, _⟩ := h.2 [] (fun n hn => by cases hn)
  exact ⟨P'', hf, hnil rfl⟩

/-! ## The up sequence -/

/-- C4: in a non-detached run of `runCreateStart` in which `setup` and `Create`
succeed and the ambient context is cancelled once `Start` has returned, the run
issues `Create`, `Start`, then exactly one `Down`; that `Down` receives a context
derived from `context.Background()`, and the run returns what `Down` returns,
whatever `Start` returned. -/
theorem runCreateStart_cancelled (fuel : Nat) (env : Env) (ctx : Ctx) (opts : composeOptions)
    (services : List String) (c : ComposeService) (project : Project)
    (hdetach : opts.Detach = false)
    (hsetup : setup fuel env ctx opts services = some (.ok c project))
    (hcreate : c.Create (.withWriter ctx) project = none)
    (hcancel : env.ctxErrAfterStart = some .Canceled) :
    ∃ run, runCreateStart fuel env ctx opts services = some run ∧
      run.trace = [Event.create (.withWriter ctx) project,
        Event.start ctx project (some .Stdout),
        Event.println "Gracefully stopping...",
        Event.down (.withWriter .background) project.Name] ∧
      (run.trace.filter Event.isDown).length = 1 ∧
      (∀ dctx name, Event.down dctx name ∈ run.trace → dctx.root = .background) ∧
      run.exit = .returned (c.Down (.withWriter .background) project.Name) := by
  refine ⟨_, by simp only [runCreateStart, hsetup, progressRun, hcreate, hcancel, hdetach]; rfl,
    by simp, by simp [Event.isDown], ?_, rfl⟩
  intro dctx name hmem
  simp only [Bool.not_false, if_true, List.nil_append, List.cons_append, List.mem_cons,
    List.mem_singleton, reduceCtorEq, false_or, Event.down.injEq, List.mem_nil_iff,
    or_false] at hmem
  rw [hmem.1]
  rfl

/-- C4 at a concrete run: `Start` returns an error, the context is cancelled,
`Down` succeeds, and the run returns nil after one `Down` on a background context. -/
theorem runCreateStart_cancelled_witness :
    interruptedService.Start .ambient webProject (some .Stdout) = some (.other "interrupted") ∧
    runCreateStart 0 (envOf interruptedService webProject (some .Canceled)) .ambient
        (optsOf "" false) [] =
      some ⟨[Event.create (.withWriter .ambient) webProject,
          Event.start .ambient webProject (some .Stdout),
          Event.println "Gracefully stopping...",
          Event.down (.withWriter .background) "app"], .returned none⟩ ∧
    ∃ run, runCreateStart 0 (envOf interruptedService webProject (some .Canceled)) .ambient
        (optsOf "" false) [] = some run ∧
      run.trace = [Event.create (.withWriter .ambient) webProject,
        Event.start .ambient webProject (some .Stdout),
        Event.println "Gracefully stopping...",
        Event.down (.withWriter .background) webProject.Name] ∧
      (run.trace.filter Event.isDown).length = 1 ∧
      (∀ dctx name, Event.down dctx name ∈ run.trace → dctx.root = .background) ∧
      run.exit = .returned (interruptedService.Down (.withWriter .background) webProject.Name) :=
  ⟨rfl, by decide,
   runCreateStart_cancelled 0 (envOf interruptedService webProject (some .Canceled)) .ambient
     (optsOf "" false) [] interruptedService webProject rfl rfl rfl rfl⟩

/-- C5, as the claim states it, fails: a detached run whose context is cancelled
once `Start` has returned issues a `Down` call and returns the result of `Down`,
not the error `Start` returned. -/
theorem runCreateStart_detached_cancelled_down :
    (optsOf "" true).Detach = true ∧
    interruptedService.Start .ambient webProject none = some (.other "interrupted") ∧
    runCreateStart 0 (envOf interruptedService webProject (some .Canceled)) .ambient
        (optsOf "" true) [] =
      some ⟨[Event.create (.withWriter .ambient) webProject,
          Event.start .ambient webProject none,
          Event.println "Gracefully stopping...",
          Event.down (.withWriter .background) "app"], .returned none⟩ :=
  ⟨rfl, rfl, by decide⟩

/-- C5 (amended): in a detached run of `runCreateStart` in which `setup`
succeeds, a `Down` call is issued exactly when `Create` succeeds and the ambient
context is cancelled once `Start` has returned; the run then issues `Create`,
`Start`, one `Down` on a background context, and returns what that `Down`
returns. When `Create` fails the run returns its error after `Create` alone; when
`Create` succeeds and the context is not cancelled the run returns what `Start`
(called with a nil writer) returns, after `Create` and `Start` alone. -/
theorem runCreateStart_detached (fuel : Nat) (env : Env) (ctx : Ctx) (opts : composeOptions)
    (services : List String) (c : ComposeService) (project : Project)
    (hdetach : opts.Detach = true)
    (hsetup : setup fuel env ctx opts services = some (.ok c project)) :
    ∃ run, runCreateStart fuel env ctx opts services = some run ∧
      ((∃ e ∈ run.trace, e.isDown = true) ↔
        (c.Create (.withWriter ctx) project = none ∧ env.ctxErrAfterStart = some .Canceled)) ∧
      (∀ err, c.Create (.withWriter ctx) project = some err →
        run = ⟨[Event.create (.withWriter ctx) project], .returned (some err)⟩) ∧
      (c.Create (.withWriter ctx) project = none → env.ctxErrAfterStart ≠ some .Canceled →
        run = ⟨[Event.create (.withWriter ctx) project, Event.start ctx project none],
          .returned (c.Start ctx project none)⟩) ∧
      (c.Create (.withWriter ctx) project = none → env.ctxErrAfterStart = some .Canceled →
        run = ⟨[Event.create (.withWriter ctx) project, Event.start ctx project none,
            Event.println "Gracefully stopping...",
            Event.down (.withWriter .background) project.Name],
          .returned (c.Down (.withWriter .background) project.Name)⟩) := by
  cases hc : c.Create (.withWriter ctx) project with
  | some err =>
    refine ⟨_, by simp only [runCreateStart, hsetup, progressRun, hc]; rfl, ?_, ?_, ?_, ?_⟩
    · simp [Event.isDown]
    · intro err' h; cases h; rfl
    · intro h; cases h
    · intro h; cases h
  | none =>
    by_cases hcancel : env.ctxErrAfterStart = some .Canceled
    · refine ⟨_, by simp only [runCreateStart, hsetup, progressRun, hc, hcancel, hdetach]; rfl,
        ?_, ?_, ?_, ?_⟩
      · simp [Event.isDown, hcancel]
      · intro err h; cases h
      · intro _ h; exact absurd hcancel h
      · intro _ _; rfl
    · refine ⟨_, by simp only [runCreateStart, hsetup, progressRun, hc, hcancel, hdetach]; rfl,
        ?_, ?_, ?_, ?_⟩
      · simp [Event.isDown, hcancel]
      · intro err h; cases h
      · intro _ _; rfl
      · intro _ h; exact absurd h hcancel

/-- C5 (amended) at concrete runs, both detached with a failing `Start`: with the
context not cancelled there is no `Down` and the run returns the error of
`Start`; with the context cancelled there is one `Down` and the run returns its
result, here nil. -/
theorem runCreateStart_detached_witness :
    runCreateStart 0 (envOf interruptedService webProject none) .ambient (optsOf "" true) [] =
      some ⟨[Event.create (.withWriter .ambient) webProject,
        Event.start .ambient webProject none], .returned (some (.other "interrupted"))⟩ ∧
    runCreateStart 0 (envOf interruptedService webProject (some .Canceled)) .ambient
        (optsOf "" true) [] =
      some ⟨[Event.create (.withWriter .ambient) webProject,
        Event.start .ambient webProject none,
        Event.println "Gracefully stopping...",
        Event.down (.withWriter .background) "app"], .returned none⟩ := by
  constructor
  · obtain ⟨run, hrun, _, _, h, _⟩ :=
      runCreateStart_detached 0 (envOf interruptedService webProject none) .ambient
        (optsOf "" true) [] interruptedService webProject rfl rfl
    rw [hrun, h rfl (by decide)]
    rfl
  · obtain ⟨run, hrun, _, _, _, h⟩ :=
      runCreateStart_detached 0 (envOf interruptedService webProject (some .Canceled))
        .ambient (optsOf "" true) [] interruptedService webProject rfl rfl
    rw [hrun, h rfl rfl]
    rfl

/-- C6: a failure before `Start` aborts the rest of the sequence. When `setup`
returns an error, `runUp` and `runCreateStart` return that error without any
backend call; `setup` returns the error of `filter` when the selection names a
service that does not exist; when `Create` fails, `runCreateStart` returns its
error after the `Create` call alone, without `Start` or `Down`. -/
theorem failure_before_start_aborts (fuel : Nat) (env : Env) (ctx : Ctx)
    (opts : composeOptions) (services : List String) :
    (∀ e, setup fuel env ctx opts services = some (.failed e) →
      runUp fuel env ctx opts services = some ⟨[], .returned (some e)⟩ ∧
      runCreateStart fuel env ctx opts services = some ⟨[], .returned (some e)⟩) ∧
    (∀ c options loaded updated after e,
      env.clientNew ctx = .ok c → opts.toProjectOptions env = .ok options →
      env.ProjectFromOptions options = .ok loaded →
      (if opts.DomainName ≠ "" then setFirstDomainName loaded opts.DomainName
        else some loaded) = some updated →
      filter fuel updated services = some (after, some e) →
      setup fuel env ctx opts services = some (.failed e)) ∧
    (∀ c project e, setup fuel env ctx opts services = some (.ok c project) →
      c.Create (.withWriter ctx) project = some e →
      runCreateStart fuel env ctx opts services =
        some ⟨[Event.create (.withWriter ctx) project], .returned (some e)⟩) := by
  refine ⟨?_, ?_, ?_⟩
  · intro e h
    exact ⟨by simp only [runUp, h], by simp only [runCreateStart, h]⟩
  · intro c options loaded updated after e h1 h2 h3 h4 h5
    simp only [setup, h1, h2, h3, h4, h5]
  · intro c project e h hc
    simp only [runCreateStart, h, progressRun, hc]

/-- C6 at concrete runs: selecting the nonexistent service `nope` makes both
commands return the lookup error with no backend call; a failing `Create` is
returned after the `Create` call alone. -/
theorem failure_before_start_aborts_witness :
    (runUp 5 (envOf interruptedService webProject none) .ambient (optsOf "" false) ["nope"] =
        some ⟨[], .returned (some (.noSuchService "nope"))⟩ ∧
      runCreateStart 5 (envOf interruptedService webProject none) .ambient (optsOf "" false)
        ["nope"] = some ⟨[], .returned (some (.noSuchService "nope"))⟩) ∧
    runCreateStart 5 (envOf failingCreateService webProject none) .ambient (optsOf "" false) [] =
      some ⟨[Event.create (.withWriter .ambient) webProject],
        .returned (some (.other "create failed"))⟩ :=
  ⟨(failure_before_start_aborts 5 (envOf interruptedService webProject none) .ambient
      (optsOf "" false) ["nope"]).1 (.noSuchService "nope") rfl,
   (failure_before_start_aborts 5 (envOf failingCreateService webProject none) .ambient
      (optsOf "" false) []).2.2 failingCreateService webProject (.other "create failed") rfl rfl⟩

/-! ## The domain name -/

theorem Reach.of_same_graph {P Q : Project} {S : List String}
    (hPQ : P.Services.map (fun s => (s.Name, s.GetDependencies)) =
      Q.Services.map (fun s => (s.Name, s.GetDependencies)))
    {n : String} (h : Reach P S n) : Reach Q S n := by
  induction h with
  | base hm => exact Reach.base hm
  | step s _ hs hn hd ih =>
    have : (s.Name, s.GetDependencies) ∈
        Q.Services.map (fun s => (s.Name, s.GetDependencies)) := by
      rw [← hPQ]; exact List.mem_map_of_mem _ hs
    obtain ⟨t, ht, hts⟩ := List.mem_map.mp this
    have h1 : t.Name = s.Name := congrArg Prod.fst hts
    have h2 : t.GetDependencies = s.GetDependencies := congrArg Prod.snd hts
    exact Reach.step t ih ht (h1.trans hn) (h2 ▸ hd)

/-- C9 (defect in the code): with services `cache`, `web`, domain name
`example.com` and selection `web`, `setup` succeeds and hands over the single
service `web`, whose domain name is still empty: the name was written to
`cache`, which `filter` then drops, so no service handed over carries the domain
name. With the empty selection the same project and options hand the name over,
on `cache`. -/
theorem setup_domain_not_on_filtered_first :
    setup 5 (envOf interruptedService cacheWebProject none) .ambient
        (optsOf "example.com" false) ["web"] =
      some (.ok interruptedService { Name := "app", Services := [⟨"web", [], ""⟩] }) ∧
    (∀ s ∈ [(⟨"web", [], ""⟩ : ServiceConfig)], s.DomainName ≠ "example.com") ∧
    setup 5 (envOf interruptedService cacheWebProject none) .ambient
        (optsOf "example.com" false) [] =
      some (.ok interruptedService
        { Name := "app", Services := [⟨"cache", [], "example.com"⟩, ⟨"web", [], ""⟩] }) :=
  ⟨rfl, by decide, rfl⟩

/-- What `setup` does with a non-empty domain name: it writes the name to the
first service of the loaded project before the selection is applied, and on
success hands over the result of `filter` on that project. Every service handed
over is that updated first service or an unchanged later service; the updated
service is the first one handed over when the selection is empty or names it
(with unique service names: exactly when the selection is empty or reaches it). -/
theorem setup_domain_on_first_loaded (fuel : Nat) (env : Env) (ctx : Ctx)
    (opts : composeOptions) (services : List String) (c c' : ComposeService)
    (options : ProjectOptions) (loaded project : Project)
    (h1 : env.clientNew ctx = .ok c) (h2 : opts.toProjectOptions env = .ok options)
    (h3 : env.ProjectFromOptions options = .ok loaded)
    (hd : opts.DomainName ≠ "")
    (hs : setup fuel env ctx opts services = some (.ok c' project)) :
    ∃ s0 rest, loaded.Services = s0 :: rest ∧
      filter fuel { loaded with Services := { s0 with DomainName := opts.DomainName } :: rest }
        services = some (project, none) ∧
      (∀ s ∈ project.Services, s = { s0 with DomainName := opts.DomainName } ∨ s ∈ rest) ∧
      (project.Services.head? = some { s0 with DomainName := opts.DomainName } ∨
        project.Services.Sublist rest) ∧
      (services = [] → project.Services = { s0 with DomainName := opts.DomainName } :: rest) ∧
      (s0.Name ∈ services →
        project.Services.head? = some { s0 with DomainName := opts.DomainName }) ∧
      (loaded.UniqueNames → services ≠ [] →
        (project.Services.head? = some { s0 with DomainName := opts.DomainName } ↔
          Reach loaded services s0.Name)) := by
  simp only [setup, h1, h2, h3, hd, ne_eq, not_false_eq_true, if_true] at hs
  cases hl : loaded.Services with
  | nil => simp [setFirstDomainName, hl] at hs
  | cons s0 rest =>
    simp only [setFirstDomainName, hl] at hs
    refine ⟨s0, rest, rfl, ?_⟩
    generalize hU : ({ loaded with Services := { s0 with DomainName := opts.DomainName } :: rest }
      : Project) = U at hs ⊢
    have hUs : U.Services = { s0 with DomainName := opts.DomainName } :: rest := by
      rw [← hU]
    cases hf : filter fuel U services with
    | none => simp [hf] at hs
    | some r =>
      obtain ⟨after, e⟩ := r
      cases e with
      | some e => simp [hf] at hs
      | none =>
        simp only [hf, Option.some.injEq, SetupExit.ok.injEq] at hs
        obtain ⟨_, hproj⟩ := hs
        subst hproj
        refine ⟨rfl, ?_⟩
        by_cases hS : services = []
        · subst hS
          have : after = U := by simpa [filter] using hf.symm
          subst this
          rw [hUs]
          refine ⟨fun s hs => (by simpa using hs), Or.inl rfl, fun _ => rfl,
            fun h => (by cases h), fun _ h => absurd rfl h⟩
        · obtain ⟨names, hw, hP⟩ := (filter_ok_iff hS).mp hf
          have hsv : after.Services =
              ({ s0 with DomainName := opts.DomainName } :: rest).filter
                (fun s => decide (s.Name ∈ names)) := by
            rw [hP, hUs]
          by_cases hkeep : s0.Name ∈ names
          · have hcons : after.Services = { s0 with DomainName := opts.DomainName } ::
                rest.filter (fun s => decide (s.Name ∈ names)) := by
              rw [hsv, List.filter_cons_of_pos (by simpa using hkeep)]
            refine ⟨?_, Or.inl (by rw [hcons]; rfl), fun h => absurd h hS,
              fun _ => by rw [hcons]; rfl, fun hUn _ => ?_⟩
            · intro s hs
              rw [hcons] at hs
              rcases List.mem_cons.mp hs with h | h
              · exact Or.inl h
              · exact Or.inr (List.mem_of_mem_filter h)
            · have hUn' : U.UniqueNames := by
                unfold Project.UniqueNames at hUn ⊢
                rw [hUs]; rw [hl] at hUn; simpa using hUn
              have hr := ((addServiceNames_ok hUn' _ _ _ _ hw).1 s0.Name).mp hkeep
              refine ⟨fun _ => ?_, fun _ => by rw [hcons]; rfl⟩
              rcases hr with h0 | hr
              · cases h0
              · refine Reach.of_same_graph ?_ hr
                rw [hUs, hl]; rfl
          · have hdrop : after.Services = rest.filter (fun s => decide (s.Name ∈ names)) := by
              rw [hsv, List.filter_cons_of_neg (by simpa using hkeep)]
            refine ⟨?_, Or.inr (by rw [hdrop]; exact List.filter_sublist _),
              fun h => absurd h hS, ?_, fun hUn _ => ?_⟩
            · intro s hs
              rw [hdrop] at hs
              exact Or.inr (List.mem_of_mem_filter hs)
            · intro hmem
              exact absurd ((walk_mono _ _ _ _ hw).2 _ hmem) hkeep
            · have hUn' : U.UniqueNames := by
                unfold Project.UniqueNames at hUn ⊢
                rw [hUs]; rw [hl] at hUn; simpa using hUn
              constructor
              · intro hhead
                have hmem : ({ s0 with DomainName := opts.DomainName } : ServiceConfig) ∈
                    after.Services := List.mem_of_mem_head? hhead
                rw [hdrop] at hmem
                have := (List.mem_filter.mp hmem).2
                exact absurd (by simpa using this) hkeep
              · intro hr
                have hr' : Reach U services s0.Name := by
                  refine Reach.of_same_graph ?_ hr
                  rw [hUs, hl]; rfl
                exact absurd (((addServiceNames_ok hUn' _ _ _ _ hw).1 s0.Name).mpr (Or.inr hr'))
                  hkeep

/-- A concrete run of `setup` with a domain name: services `cache`, `web`, domain
name `example.com`, empty selection: the project handed over is `filter` of the
project with the name written to `cache`, the first loaded service. -/
theorem setup_domain_on_first_loaded_witness :
    setup 0 (envOf interruptedService cacheWebProject none) .ambient
        (optsOf "example.com" false) [] = some (.ok interruptedService cacheWebDomainProject) ∧
    ∃ s0 rest, cacheWebProject.Services = s0 :: rest ∧
      filter 0 { cacheWebProject with Services := { s0 with DomainName := "example.com" } :: rest }
        [] = some (cacheWebDomainProject, none) ∧
      cacheWebDomainProject.Services = { s0 with DomainName := "example.com" } :: rest := by
  refine ⟨rfl, ?_⟩
  obtain ⟨s0, rest, hl, hf, _, _, hall, _⟩ :=
    setup_domain_on_first_loaded 0 (envOf interruptedService cacheWebProject none) .ambient
      (optsOf "example.com" false) [] interruptedService interruptedService
      ⟨[], [], "", ""⟩ cacheWebProject cacheWebDomainProject rfl rfl rfl (by decide) rfl
  exact ⟨s0, rest, hl, hf, hall rfl⟩

/-- C10: once the client and the project are obtained, `setup` panics on the write
`project.Services[0]` exactly when the domain name is non-empty and the loaded
project has no service; that is, the write is in bounds exactly when the domain
name is empty (no write) or the project has a service. The panic comes before
`filter`: it occurs whatever the selection and however `filter` would end. -/
theorem setup_panics_iff (fuel : Nat) (env : Env) (ctx : Ctx) (opts : composeOptions)
    (services : List String) (c : ComposeService) (options : ProjectOptions)
    (loaded : Project)
    (h1 : env.clientNew ctx = .ok c) (h2 : opts.toProjectOptions env = .ok options)
    (h3 : env.ProjectFromOptions options = .ok loaded) :
    (setup fuel env ctx opts services = some .panicked ↔
      (opts.DomainName ≠ "" ∧ loaded.Services = [])) ∧
    (setup fuel env ctx opts services ≠ some .panicked ↔
      (opts.DomainName = "" ∨ 0 < loaded.Services.length)) ∧
    (setFirstDomainName loaded opts.DomainName = none ↔ loaded.Services = []) := by
  have key : setup fuel env ctx opts services = some .panicked ↔
      (opts.DomainName ≠ "" ∧ loaded.Services = []) := by
    simp only [setup, h1, h2, h3]
    by_cases hd : opts.DomainName = ""
    · simp only [hd, ne_eq, not_true_eq_false, if_false, false_and, iff_false]
      cases hf : filter fuel loaded services with
      | none => simp
      | some r =>
        obtain ⟨after, e⟩ := r
        cases e <;> simp
    · simp only [hd, ne_eq, not_false_eq_true, if_true, true_and]
      cases hl : loaded.Services with
      | nil => simp [setFirstDomainName, hl]
      | cons s0 rest =>
        simp only [setFirstDomainName, hl]
        cases hf : filter fuel { loaded with
            Services := { s0 with DomainName := opts.DomainName } :: rest } services with
        | none => simp
        | some r =>
          obtain ⟨after, e⟩ := r
          cases e <;> simp
  refine ⟨key, ?_, ?_⟩
  · rw [Ne, key, not_and_or, not_not, List.length_pos]
  · unfold setFirstDomainName
    cases loaded.Services <;> simp

/-- C10 at a concrete run: a project without services and the domain name
`example.com`: `setup` panics, also with a selection naming a service that does
not exist and with no fuel for `filter`. -/
theorem setup_panics_iff_witness :
    setup 0 (envOf interruptedService emptyProject none) .ambient
      (optsOf "example.com" false) ["nope"] = some .panicked :=
  (setup_panics_iff 0 (envOf interruptedService emptyProject none) .ambient
    (optsOf "example.com" false) ["nope"] interruptedService ⟨[], [], "", ""⟩ emptyProject
    rfl rfl rfl).1.mpr ⟨by decide, rfl⟩

end Compose
